import Mathlib

/-!
Verification of the mixture compiler in `spyysalo/datamix-tools`.

The repository has two scripts, `datamix.py` and `datamix-to-file.py`, each
containing a JSON-tree validator (`validate_mixture`), a weight flattener
(`flatten_mixture`) and a largest-remainder quantizer
(`output_megatron_data_path` resp. `save_megatron_data_path`).

The embedding below models Python JSON values as `JValue` (floats are
modelled as exact rationals, Python dicts as insertion-ordered association
lists), the two validators as `validate_mixture` (from `datamix.py`) and
`validate_mixture_file` (from `datamix-to-file.py`), the flattener as
`flatten_mixture`, and the shared quantization logic as `quantize`.
Recursion over the untyped JSON tree is implemented with an explicit fuel
argument so that every definition is structurally recursive and hence
executable by kernel reduction; the wrappers instantiate the fuel with
the size `sizeJL` of the input, which strictly dominates the recursion
depth.
-/

attribute [local semireducible] Rat.add Rat.sub Rat.mul Rat.inv

/-- A Python/JSON value as handled by the scripts: strings, floats
(modelled as exact rationals), ints, lists, `None`/other scalars, and
insertion-ordered dicts with string keys. -/
inductive JValue where
  | str (s : String)
  | float (q : ℚ)
  | int (n : ℤ)
  | list (xs : List JValue)
  | null
  | dict (entries : List (String × JValue))

mutual

/-- Size of a JSON value, used as the fuel bound for the recursive
functions below: it strictly dominates the number of recursion steps any
of them performs. -/
def sizeJ : JValue → Nat
  | .dict es => 1 + sizeJL es
  | .list xs => 1 + sizeJX xs
  | _ => 1

/-- Size of a dict entry list. -/
def sizeJL : List (String × JValue) → Nat
  | [] => 1
  | (_, v) :: rest => 1 + sizeJ v + sizeJL rest

/-- Size of a JSON list. -/
def sizeJX : List JValue → Nat
  | [] => 1
  | v :: rest => 1 + sizeJ v + sizeJX rest

end

/-- Key lookup in a Python dict, modelled on the association list: first
binding wins (Python dicts have unique keys, so this is faithful). -/
def lookupJ (k : String) : List (String × JValue) → Option JValue
  | [] => none
  | (k', v) :: rest => if k' = k then some v else lookupJ k rest

/-- Key lookup in the paths table (a dict of strings to strings). -/
def lookupS (k : String) : List (String × String) → Option String
  | [] => none
  | (k', v) :: rest => if k' = k then some v else lookupS k rest

/-- The validation failures raised by `validate_mixture` in either script
(each `raise ValueError(...)` site gets one constructor), plus `crash` for
uncaught exceptions (`AttributeError`/`TypeError`) that `datamix-to-file.py`
can hit on malformed input, and `fuelOut` for exhaustion of the fuel
counter (never reached at the `sizeOf` bound used by the wrappers). -/
inductive VErr where
  | dupName (k : String)
  | expectedDict (k : String)
  | missingProportion (k : String)
  | expectedFloatProportion (k : String)
  | expectedNumericProportion (k : String)
  | proportionOutOfRange (k : String)
  | expectedDictMixture (k : String)
  | bothDataAndMixture (k : String)
  | expectedStrData (k : String)
  | unknownDataId (d : String) (k : String)
  | unknownDataIdNonStr (k : String)
  | duplicateRef (d : String)
  | neitherDataNorMixture (label : String)
  | balance (label : String)
  | crash
  | fuelOut
deriving DecidableEq

/-- Python's `round` to the nearest integer, rounding halves to even,
on exact rationals. -/
def roundHalfEven (x : ℚ) : ℤ :=
  if x - ⌊x⌋ < 1 / 2 then ⌊x⌋
  else if 1 / 2 < x - ⌊x⌋ then ⌊x⌋ + 1
  else if ⌊x⌋ % 2 = 0 then ⌊x⌋ else ⌊x⌋ + 1

/-- The balance test `round(sum(proportions), 10) == 1` applied by both
validators to each level's proportion sum (line 110 of `datamix.py`,
line 82 of `datamix-to-file.py`): the sum rounded half-to-even at the
tenth decimal must be exactly 1. -/
def balanceOK (s : ℚ) : Bool :=
  decide (roundHalfEven (s * 10 ^ 10) = 10 ^ 10)

/-- Python's `isinstance(v, (float, int))` view of a JSON value as a
number, used by the `datamix-to-file.py` proportion check. -/
def numVal : JValue → Option ℚ
  | .float q => some q
  | .int n => some (n : ℚ)
  | _ => none

/-- Recursive worker for `validate_mixture` of `datamix.py` (lines
68-112).  State threading models the shared mutable `names`/`ids` sets:
the call returns the level's proportion list together with the updated
sets.  The per-level balance check of a nested level is performed at the
call site (with the parent key as label), exactly as the recursive call
on line 98 does; the check for the top level lives in the wrapper. -/
def validateMixtureGo (fuel : Nat) (mixture : List (String × JValue))
    (paths : List (String × String)) (names ids : List String) :
    Except VErr (List ℚ × List String × List String) :=
  match fuel, mixture with
  | _, [] => .ok ([], names, ids)
  | 0, _ => .error .fuelOut
  | fuel + 1, (k, v) :: rest =>
    if k ∈ names then .error (.dupName k)
    else
      match v with
      | .dict ve =>
        match lookupJ "proportion" ve with
        | none => .error (.missingProportion k)
        | some pv =>
          match pv with
          | .float p =>
            if 0 < p ∧ p ≤ 1 then
              match lookupJ "mixture" ve with
              | some mv =>
                match mv with
                | .dict me =>
                  match lookupJ "data" ve with
                  | some _ => .error (.bothDataAndMixture k)
                  | none =>
                    match validateMixtureGo fuel me paths (k :: names) ids with
                    | .error e => .error e
                    | .ok (mprops, ns₁, is₁) =>
                      if balanceOK mprops.sum then
                        match validateMixtureGo fuel rest paths ns₁ is₁ with
                        | .error e => .error e
                        | .ok (props, ns₂, is₂) => .ok (p :: props, ns₂, is₂)
                      else .error (.balance k)
                | _ => .error (.expectedDictMixture k)
              | none =>
                match lookupJ "data" ve with
                | some dv =>
                  match dv with
                  | .str d =>
                    if d ∈ paths.map Prod.fst then
                      if d ∈ ids then .error (.duplicateRef d)
                      else
                        match validateMixtureGo fuel rest paths (k :: names) (d :: ids) with
                        | .error e => .error e
                        | .ok (props, ns₂, is₂) => .ok (p :: props, ns₂, is₂)
                    else .error (.unknownDataId d k)
                  | _ => .error (.expectedStrData k)
                | none => .error (.neitherDataNorMixture k)
            else .error (.proportionOutOfRange k)
          | _ => .error (.expectedFloatProportion k)
      | _ => .error (.expectedDict k)

/-- Entry point `validate_mixture(mixture, paths)` of `datamix.py`: runs
the recursive validator with fresh `names`/`ids` sets and then applies the
balance check for the root level with label `"top level mixture"`. -/
def validate_mixture (mixture : List (String × JValue))
    (paths : List (String × String)) : Except VErr Unit :=
  match validateMixtureGo (sizeJL mixture) mixture paths [] [] with
  | .error e => .error e
  | .ok (props, _, _) =>
    if balanceOK props.sum then .ok () else .error (.balance "top level mixture")

/-- Recursive worker for `validate_mixture` of `datamix-to-file.py`
(lines 53-83).  Differences from `datamix.py` faithfully preserved:
the proportion may be any number (`isinstance(v, (float, int))`) and is
not range checked; a nested `mixture` value is recursed into without a
dict check (a non-dict crashes with `AttributeError`, modelled as
`crash`) and without rejecting a simultaneous `data` key; a `data` value
is not type checked (an unhashable value crashes, a hashable non-string
is reported as an unknown ID) and duplicate data references are not
rejected (`ids.add` on an already-seen ID is a silent no-op). -/
def validateMixtureFileGo (fuel : Nat) (mixture : List (String × JValue))
    (paths : List (String × String)) (names ids : List String) :
    Except VErr (List ℚ × List String × List String) :=
  match fuel, mixture with
  | _, [] => .ok ([], names, ids)
  | 0, _ => .error .fuelOut
  | fuel + 1, (k, v) :: rest =>
    if k ∈ names then .error (.dupName k)
    else
      match v with
      | .dict ve =>
        match lookupJ "proportion" ve with
        | none => .error (.missingProportion k)
        | some pv =>
          match numVal pv with
          | none => .error (.expectedNumericProportion k)
          | some p =>
            match lookupJ "mixture" ve with
            | some mv =>
              match mv with
              | .dict me =>
                match validateMixtureFileGo fuel me paths (k :: names) ids with
                | .error e => .error e
                | .ok (mprops, ns₁, is₁) =>
                  if balanceOK mprops.sum then
                    match validateMixtureFileGo fuel rest paths ns₁ is₁ with
                    | .error e => .error e
                    | .ok (props, ns₂, is₂) => .ok (p :: props, ns₂, is₂)
                  else .error (.balance k)
              | _ => .error .crash
            | none =>
              match lookupJ "data" ve with
              | some dv =>
                match dv with
                | .str d =>
                  if d ∈ paths.map Prod.fst then
                    match validateMixtureFileGo fuel rest paths (k :: names)
                        (if d ∈ ids then ids else d :: ids) with
                    | .error e => .error e
                    | .ok (props, ns₂, is₂) => .ok (p :: props, ns₂, is₂)
                  else .error (.unknownDataId d k)
                | .dict _ => .error .crash
                | .list _ => .error .crash
                | _ => .error (.unknownDataIdNonStr k)
              | none => .error (.neitherDataNorMixture k)
      | _ => .error (.expectedDict k)

/-- Entry point `validate_mixture(mixture, paths)` of
`datamix-to-file.py`. -/
def validate_mixture_file (mixture : List (String × JValue))
    (paths : List (String × String)) : Except VErr Unit :=
  match validateMixtureFileGo (sizeJL mixture) mixture paths [] [] with
  | .error e => .error e
  | .ok (props, _, _) =>
    if balanceOK props.sum then .ok () else .error (.balance "top level mixture")

/-- Python dict assignment `flattened[k] = x`: replaces the value in
place if the key is present (keeping its original position), otherwise
appends the binding at the end. -/
def dictInsert (l : List (String × ℚ × JValue)) (k : String) (x : ℚ × JValue) :
    List (String × ℚ × JValue) :=
  match l with
  | [] => [(k, x)]
  | (k', y) :: rest => if k' = k then (k, x) :: rest else (k', y) :: dictInsert rest k x

/-- Recursive worker for `flatten_mixture` (identical in both scripts):
`weight = parent_weight * v['proportion']`; recurse into a nested
`mixture`, otherwise record `(weight, v['data'])` under the node's own
key.  Any uncaught Python exception (missing or non-numeric proportion,
non-dict node or nested mixture, missing data key) is modelled as
`none`. -/
def flattenGo (fuel : Nat) (mixture : List (String × JValue)) (pw : ℚ)
    (acc : List (String × ℚ × JValue)) : Option (List (String × ℚ × JValue)) :=
  match fuel, mixture with
  | _, [] => some acc
  | 0, _ => none
  | fuel + 1, (k, v) :: rest =>
    match v with
    | .dict ve =>
      match lookupJ "proportion" ve with
      | none => none
      | some pv =>
        match numVal pv with
        | none => none
        | some p =>
          match lookupJ "mixture" ve with
          | some mv =>
            match mv with
            | .dict me =>
              match flattenGo fuel me (pw * p) acc with
              | none => none
              | some acc₁ => flattenGo fuel rest pw acc₁
            | _ => none
          | none =>
            match lookupJ "data" ve with
            | some dv => flattenGo fuel rest pw (dictInsert acc k (pw * p, dv))
            | none => none
    | _ => none

/-- Entry point `flatten_mixture(mixture)`: starts with parent weight 1.0
and an empty output map. -/
def flatten_mixture (mixture : List (String × JValue)) :
    Option (List (String × ℚ × JValue)) :=
  flattenGo (sizeJL mixture) mixture 1 []

/-- Modelled from the spec for comparison with `flatten_mixture`
(Mixture Flattener contract, §4.2): the list of leaves of the tree in
depth-first left-to-right order, each keyed by the leaf's own name and
carrying the product of the `proportion` values along the root-to-leaf
path together with the leaf's data-ID.  Nodes that do not fit the
validated shape are skipped (the comparison theorem only applies this to
validated trees). -/
def specLeavesGo (fuel : Nat) (mixture : List (String × JValue)) (pw : ℚ) :
    List (String × ℚ × String) :=
  match fuel, mixture with
  | _, [] => []
  | 0, _ => []
  | fuel + 1, (k, v) :: rest =>
    match v with
    | .dict ve =>
      match lookupJ "proportion" ve with
      | some pv =>
        match numVal pv with
        | some p =>
          match lookupJ "mixture" ve with
          | some (.dict me) => specLeavesGo fuel me (pw * p) ++ specLeavesGo fuel rest pw
          | some _ => specLeavesGo fuel rest pw
          | none =>
            match lookupJ "data" ve with
            | some (.str d) => (k, pw * p, d) :: specLeavesGo fuel rest pw
            | _ => specLeavesGo fuel rest pw
        | none => specLeavesGo fuel rest pw
      | none => specLeavesGo fuel rest pw
    | _ => specLeavesGo fuel rest pw

/-- The spec-side flattened weight map of a whole tree (parent weight 1). -/
def spec_leaves (mixture : List (String × JValue)) : List (String × ℚ × String) :=
  specLeavesGo (sizeJL mixture) mixture 1

/-- The node names in depth-first, left-to-right traversal order, i.e.
the order in which either validator adds names to its threaded `names`
set on a successful run (a nested level is visited before the following
sibling). -/
def dfsNames (fuel : Nat) (mixture : List (String × JValue)) : List String :=
  match fuel, mixture with
  | _, [] => []
  | 0, _ => []
  | fuel + 1, (k, v) :: rest =>
    k :: ((match v with
      | .dict ve =>
        match lookupJ "mixture" ve with
        | some (.dict me) => dfsNames fuel me
        | _ => []
      | _ => []) ++ dfsNames fuel rest)

/-- The `data` values of the leaves in depth-first, left-to-right
traversal order: the order in which `validate_mixture` of `datamix.py`
adds IDs to its threaded `ids` set on a successful run. -/
def dfsIds (fuel : Nat) (mixture : List (String × JValue)) : List String :=
  match fuel, mixture with
  | _, [] => []
  | 0, _ => []
  | fuel + 1, (_, v) :: rest =>
    (match v with
      | .dict ve =>
        match lookupJ "mixture" ve with
        | some (.dict me) => dfsIds fuel me
        | _ =>
          match lookupJ "data" ve with
          | some (.str d) => [d]
          | _ => []
      | _ => []) ++ dfsIds fuel rest

/-- All `(name, node)` pairs of the tree in depth-first, left-to-right
traversal order (the nodes visited by the validators). -/
def dfsNodes (fuel : Nat) (mixture : List (String × JValue)) :
    List (String × JValue) :=
  match fuel, mixture with
  | _, [] => []
  | 0, _ => []
  | fuel + 1, (k, v) :: rest =>
    (k, v) :: ((match v with
      | .dict ve =>
        match lookupJ "mixture" ve with
        | some (.dict me) => dfsNodes fuel me
        | _ => []
      | _ => []) ++ dfsNodes fuel rest)

/-- Structural well-formedness of a (sub)tree as established by a
successful `datamix.py` validation run, in the shape needed by the
flattener: every node is a dict with a float proportion and is either a
leaf (no `mixture` key, a string `data` value) or an inner node (a dict
`mixture` value, recursively well formed). -/
inductive WFL : List (String × JValue) → Prop where
  | nil : WFL []
  | leaf {k : String} {ve : List (String × JValue)} {rest : List (String × JValue)}
      {p : ℚ} {d : String}
      (hp : lookupJ "proportion" ve = some (.float p))
      (hm : lookupJ "mixture" ve = none)
      (hd : lookupJ "data" ve = some (.str d))
      (hrest : WFL rest) : WFL ((k, .dict ve) :: rest)
  | node {k : String} {ve me rest : List (String × JValue)} {p : ℚ}
      (hp : lookupJ "proportion" ve = some (.float p))
      (hm : lookupJ "mixture" ve = some (.dict me))
      (hme : WFL me)
      (hrest : WFL rest) : WFL ((k, .dict ve) :: rest)

/-- Python's `int(x)` on a float: truncation toward zero. -/
def pyInt (q : ℚ) : ℤ := if 0 ≤ q then ⌊q⌋ else -⌊-q⌋

/-- One row of the quantizer's working list (`scaled_values` resp.
`processed_items`): resolved path, floored scaled value and fractional
remainder.  `datamix.py` also keeps the flattened key. -/
structure QEntry where
  key : String
  path : String
  floorv : ℤ
  remainder : ℚ
deriving DecidableEq

/-- The comparison used by `sort(key=lambda x: x['remainder'], reverse=True)`:
descending by remainder. -/
def qle (a b : QEntry) : Prop := b.remainder ≤ a.remainder

instance : DecidableRel qle := fun a b =>
  inferInstanceAs (Decidable (b.remainder ≤ a.remainder))

/-- A stable descending-remainder sort, modelling Python's stable
`list.sort(key=..., reverse=True)` (which preserves the original order of
entries with equal remainders). -/
def sortQ (l : List QEntry) : List QEntry := l.insertionSort qle

/-- The scaling pass of the quantizer (lines 140-150 of `datamix.py`,
lines 108-117 of `datamix-to-file.py`): for each flattened entry compute
`exact = proportion * 10^6`, `floor = int(exact)`,
`remainder = exact - floor`, and resolve the path via `paths[v['data']]`
(a missing or non-string ID raises, modelled as `none`). -/
def scale_values (flattened : List (String × ℚ × JValue))
    (paths : List (String × String)) : Option (List QEntry) :=
  match flattened with
  | [] => some []
  | (k, p, dv) :: rest =>
    match dv with
    | .str d =>
      match lookupS d paths with
      | some pathStr =>
        match scale_values rest paths with
        | some es =>
          some ({ key := k, path := pathStr, floorv := pyInt (p * 10 ^ 6),
                  remainder := p * 10 ^ 6 - pyInt (p * 10 ^ 6) } :: es)
        | none => none
      | none => none
    | _ => none

/-- Increment the `floor` field of the first `n` entries, as done by
`for i in range(int(diff)): ...[i]['floor'] += 1` when `n` is at most the
list length. -/
def incFirst : Nat → List QEntry → List QEntry
  | 0, l => l
  | _ + 1, [] => []
  | n + 1, e :: rest => { e with floorv := e.floorv + 1 } :: incFirst n rest

/-- The deficit `diff = multiplier - total_floor_sum`: the number of
`1e-6` units missing from the floored values. -/
def deficit (entries : List QEntry) : ℤ :=
  10 ^ 6 - (entries.map QEntry.floorv).sum

/-- The largest-remainder quantization shared by
`output_megatron_data_path` (lines 136-161 of `datamix.py`) and
`save_megatron_data_path` (lines 104-126 of `datamix-to-file.py`):
scale the flattened proportions, sort by remainder descending (stably),
and add one unit to the first `diff` entries.  When `diff` exceeds the
number of entries the Python loop raises `IndexError` (modelled as
`none`); when `diff` is negative, `range(int(diff))` is empty and no
entry is incremented. -/
def quantize (flattened : List (String × ℚ × JValue))
    (paths : List (String × String)) : Option (List QEntry) :=
  match scale_values flattened paths with
  | none => none
  | some entries =>
    if ((sortQ entries).length : ℤ) < deficit entries then none
    else some (incFirst (deficit entries).toNat (sortQ entries))

/-- The full quantization pipeline of `output_megatron_data_path`
(`datamix.py`): flatten the validated mixture, then quantize.  The final
rows printed by the script are, in order, `floorv / 10^6` formatted with
six decimals followed by `path`; `save_megatron_data_path` of
`datamix-to-file.py` writes the same rows space-joined on one line. -/
def output_megatron_data_path (mixture : List (String × JValue))
    (paths : List (String × String)) : Option (List QEntry) :=
  match flatten_mixture mixture with
  | none => none
  | some flattened => quantize flattened paths

/-- The facts established for one visited `(name, node)` pair by a
successful `datamix.py` validation run: the node is a dict, its
proportion is a float in `(0, 1]`, and it carries exactly one of a
(dict-valued) `mixture` key or a (string-valued) `data` key. -/
def nodeFactsDM (kv : String × JValue) : Prop :=
  ∃ ve, kv.2 = JValue.dict ve ∧
    (∃ p, lookupJ "proportion" ve = some (.float p) ∧ 0 < p ∧ p ≤ 1) ∧
    ((∃ me, lookupJ "mixture" ve = some (.dict me) ∧ lookupJ "data" ve = none) ∨
      (lookupJ "mixture" ve = none ∧ ∃ d, lookupJ "data" ve = some (.str d)))

/-- A two-entry paths table used by the concrete test inputs. -/
def exPaths : List (String × String) := [("a", "/data/a.bin"), ("b", "/data/b.bin")]

/-- Concrete input for the balance-tolerance analysis: proportions `0.5`
and `0.50000000008`, which sum to `1 + 8e-11` (within `1e-10` of 1). -/
def exBalanceMix : List (String × JValue) :=
  [("x", .dict [("proportion", .float (1 / 2)), ("data", .str "a")]),
   ("y", .dict [("proportion", .float (6250000001 / 12500000000)), ("data", .str "b")])]

/-- A node whose proportion is the float 0 (outside `(0, 1]`). -/
def exZeroNode : List (String × JValue) :=
  [("proportion", .float 0), ("data", .str "a")]

/-- Concrete input with a zero proportion on node `x` (and proportion 1
on node `y`, so the level sum is exactly 1). -/
def exZeroPropMix : List (String × JValue) :=
  [("x", .dict exZeroNode),
   ("y", .dict [("proportion", .float 1), ("data", .str "b")])]

/-- A node carrying both a `data` key and a `mixture` key. -/
def exBothNode : List (String × JValue) :=
  [("proportion", .float 1), ("data", .str "a"),
   ("mixture", .dict [("y", .dict [("proportion", .float 1), ("data", .str "b")])])]

/-- Concrete input whose single node carries both a `data` key and a
`mixture` key. -/
def exBothMix : List (String × JValue) := [("x", .dict exBothNode)]

/-- Concrete input in which two distinct leaves reference the same
data-ID `"a"`. -/
def exDupRefMix : List (String × JValue) :=
  [("x", .dict [("proportion", .float (1 / 2)), ("data", .str "a")]),
   ("y", .dict [("proportion", .float (1 / 2)), ("data", .str "a")])]

/-- Concrete input in which the name `x` appears both at the top level
and inside the nested mixture of `y` (a cross-level duplicate,
not a sibling duplicate). -/
def exCrossDupMix : List (String × JValue) :=
  [("x", .dict [("proportion", .float (1 / 2)), ("data", .str "a")]),
   ("y", .dict [("proportion", .float (1 / 2)),
     ("mixture", .dict [("x", .dict [("proportion", .float 1), ("data", .str "b")])])])]

/-- A fully valid two-level mixture: one top-level node of proportion 1
containing leaves `x` and `y` of proportion `1/2` each. -/
def exNestedMix : List (String × JValue) :=
  [("top", .dict [("proportion", .float 1),
    ("mixture", .dict [("x", .dict [("proportion", .float (1 / 2)), ("data", .str "a")]),
                       ("y", .dict [("proportion", .float (1 / 2)), ("data", .str "b")])])])]

/-- A flattened weight map whose single proportion `2` makes the
quantizer deficit negative (`10^6 - 2000000`). -/
def exNegFlat : List (String × ℚ × JValue) := [("x", 2, .str "a")]

/-- A flattened weight map whose single proportion `0` makes the
quantizer deficit (`10^6`) exceed the number of entries. -/
def exBigDefFlat : List (String × ℚ × JValue) := [("x", 0, .str "a")]

/-- A flattened weight map with proportions `1/3` and `2/3`, whose
floored scaled values sum to `999999` (deficit 1). -/
def exThirdsFlat : List (String × ℚ × JValue) :=
  [("x", 1 / 3, .str "a"), ("y", 2 / 3, .str "b")]

/-- The scaled entries produced by `scale_values` on `exThirdsFlat`. -/
def exThirdsEntries : List QEntry :=
  [⟨"x", "/data/a.bin", 333333, 1 / 3⟩, ⟨"y", "/data/b.bin", 666666, 2 / 3⟩]

/-- The scaled entries produced by `scale_values` on `exNegFlat`. -/
def exNegEntries : List QEntry := [⟨"x", "/data/a.bin", 2000000, 0⟩]

/-- The scaled entries produced by `scale_values` on `exBigDefFlat`. -/
def exZeroEntries : List QEntry := [⟨"x", "/data/a.bin", 0, 0⟩]

/-! ### Size lemmas -/

theorem sizeJ_pos (v : JValue) : 0 < sizeJ v := by
  cases v <;> simp [sizeJ]

theorem sizeJL_pos (l : List (String × JValue)) : 0 < sizeJL l := by
  cases l with
  | nil => simp [sizeJL]
  | cons hd tl => obtain ⟨k, v⟩ := hd; simp [sizeJL]

theorem lookupJ_sizeJ {k : String} :
    ∀ {l : List (String × JValue)} {v : JValue},
      lookupJ k l = some v → sizeJ v < sizeJL l := by
  intro l
  induction l with
  | nil => intro v h; simp [lookupJ] at h
  | cons hd tl ih =>
    obtain ⟨k', w⟩ := hd
    intro v h
    simp only [lookupJ] at h
    split at h
    · cases h
      have := sizeJL_pos tl
      simp only [sizeJL]
      omega
    · have h₁ := ih h
      have h₂ := sizeJ_pos w
      simp only [sizeJL]
      omega

theorem lookupJ_mixture_size {ve me : List (String × JValue)}
    (h : lookupJ "mixture" ve = some (.dict me)) :
    sizeJL me + 1 < sizeJL ve := by
  have h₁ := lookupJ_sizeJ h
  simp only [sizeJ] at h₁
  omega

/-! ### Characterization of the balance check -/

theorem roundHalfEven_eq_iff {x : ℚ} {n : ℤ} (hn : n % 2 = 0) :
    roundHalfEven x = n ↔ |x - n| ≤ 1 / 2 := by
  have hfl : (⌊x⌋ : ℚ) ≤ x := Int.floor_le x
  have hfu : x < ⌊x⌋ + 1 := Int.lt_floor_add_one x
  rw [abs_sub_le_iff]
  unfold roundHalfEven
  split_ifs with h1 h2 h3
  · constructor
    · rintro rfl
      constructor <;> linarith
    · rintro ⟨ha, hb⟩
      have hna : (n : ℚ) < (⌊x⌋ : ℚ) + 1 := by linarith
      have hnb : (⌊x⌋ : ℚ) < (n : ℚ) + 1 := by linarith
      have hna' : n < ⌊x⌋ + 1 := by exact_mod_cast hna
      have hnb' : ⌊x⌋ < n + 1 := by exact_mod_cast hnb
      omega
  · constructor
    · rintro rfl
      constructor <;> push_cast <;> linarith
    · rintro ⟨ha, hb⟩
      have hna : (n : ℚ) < (⌊x⌋ : ℚ) + 2 := by linarith
      have hnb : (⌊x⌋ : ℚ) < (n : ℚ) := by linarith
      have hna' : n < ⌊x⌋ + 2 := by exact_mod_cast hna
      have hnb' : ⌊x⌋ < n := by exact_mod_cast hnb
      omega
  · have hx : x - ⌊x⌋ = 1 / 2 := by linarith
    constructor
    · rintro rfl
      constructor <;> linarith
    · rintro ⟨ha, hb⟩
      have hna : (n : ℚ) ≤ (⌊x⌋ : ℚ) + 1 := by linarith
      have hnb : (⌊x⌋ : ℚ) ≤ (n : ℚ) := by linarith
      have hna' : n ≤ ⌊x⌋ + 1 := by exact_mod_cast hna
      have hnb' : ⌊x⌋ ≤ n := by exact_mod_cast hnb
      omega
  · have hx : x - ⌊x⌋ = 1 / 2 := by linarith
    constructor
    · rintro rfl
      constructor <;> push_cast <;> linarith
    · rintro ⟨ha, hb⟩
      have hna : (n : ℚ) ≤ (⌊x⌋ : ℚ) + 1 := by linarith
      have hnb : (⌊x⌋ : ℚ) ≤ (n : ℚ) := by linarith
      have hna' : n ≤ ⌊x⌋ + 1 := by exact_mod_cast hna
      have hnb' : ⌊x⌋ ≤ n := by exact_mod_cast hnb
      omega

theorem balanceOK_iff (s : ℚ) :
    balanceOK s = true ↔ |s - 1| ≤ 1 / (2 * 10 ^ 10) := by
  unfold balanceOK
  rw [decide_eq_true_eq]
  rw [roundHalfEven_eq_iff (by norm_num : ((10 : ℤ) ^ 10) % 2 = 0)]
  push_cast
  rw [abs_sub_le_iff, abs_sub_le_iff]
  constructor <;> rintro ⟨h1, h2⟩ <;> constructor <;> linarith

/-! ### Quantizer lemmas -/

theorem incFirst_sum : ∀ (n : Nat) (l : List QEntry), n ≤ l.length →
    ((incFirst n l).map QEntry.floorv).sum = (l.map QEntry.floorv).sum + n := by
  intro n
  induction n with
  | zero => intro l _; simp [incFirst]
  | succ n ih =>
    intro l h
    cases l with
    | nil => simp at h
    | cons e rest =>
      simp only [incFirst, List.map_cons, List.sum_cons]
      rw [ih rest (by simp only [List.length_cons] at h; omega)]
      push_cast
      ring

theorem sortQ_perm (l : List QEntry) : List.Perm (sortQ l) l :=
  List.perm_insertionSort qle l

theorem sortQ_length (l : List QEntry) : (sortQ l).length = l.length :=
  (sortQ_perm l).length_eq

theorem sortQ_floor_sum (l : List QEntry) :
    ((sortQ l).map QEntry.floorv).sum = (l.map QEntry.floorv).sum :=
  ((sortQ_perm l).map QEntry.floorv).sum_eq

/-- C1: for every flattened weight map whose quantizer deficit (`10^6`
minus the sum of the floored scaled proportions) is an integer between 0
and the number of entries inclusive, the quantizer succeeds and the
final integer `floor` values of its output sum to exactly `10^6`, so the
six-decimal proportions obtained by dividing them by `10^6` sum to
exactly `1.000000`. -/
theorem quantize_sum_exact (flattened : List (String × ℚ × JValue))
    (paths : List (String × String)) (entries : List QEntry)
    (hs : scale_values flattened paths = some entries)
    (h0 : 0 ≤ deficit entries) (hn : deficit entries ≤ entries.length) :
    ∃ out, quantize flattened paths = some out ∧
      (out.map QEntry.floorv).sum = 10 ^ 6 := by
  refine ⟨incFirst (deficit entries).toNat (sortQ entries), ?_, ?_⟩
  · simp only [quantize, hs]
    rw [if_neg (by rw [sortQ_length]; omega)]
  · rw [incFirst_sum _ _ (by rw [sortQ_length]; omega)]
    rw [sortQ_floor_sum]
    simp only [deficit] at h0 ⊢
    omega

/-- Witness for C1 on the flattened map with proportions `1/3` and
`2/3`: floors `333333` and `666666`, deficit 1, output sum `10^6`. -/
theorem quantize_sum_exact_witness :
    scale_values exThirdsFlat exPaths = some exThirdsEntries
    ∧ 0 ≤ deficit exThirdsEntries
    ∧ deficit exThirdsEntries ≤ exThirdsEntries.length
    ∧ ∃ out, quantize exThirdsFlat exPaths = some out ∧
        (out.map QEntry.floorv).sum = 10 ^ 6 :=
  ⟨by decide, by decide, by decide,
    quantize_sum_exact exThirdsFlat exPaths exThirdsEntries (by decide) (by decide) (by decide)⟩

/-- C6 (amended): if the quantizer deficit exceeds the number of
entries, the Python increment loop fails with `IndexError` (modelled as
`none`); but if the deficit is negative the loop body never executes and
the quantizer silently returns the sorted entries unchanged, whose
scaled values do not sum to `10^6` — it does not fail. -/
theorem quantize_bad_deficit (flattened : List (String × ℚ × JValue))
    (paths : List (String × String)) (entries : List QEntry)
    (hs : scale_values flattened paths = some entries) :
    ((entries.length : ℤ) < deficit entries → quantize flattened paths = none)
    ∧ (deficit entries < 0 →
        quantize flattened paths = some (sortQ entries) ∧
        ((sortQ entries).map QEntry.floorv).sum ≠ 10 ^ 6) := by
  constructor
  · intro hgt
    simp only [quantize, hs]
    rw [if_pos (by rw [sortQ_length]; omega)]
  · intro hneg
    refine ⟨?_, ?_⟩
    · simp only [quantize, hs]
      rw [if_neg (by rw [sortQ_length]; omega)]
      rw [show (deficit entries).toNat = 0 from by omega]
      rfl
    · rw [sortQ_floor_sum]
      simp only [deficit] at hneg ⊢
      omega

/-- Counterexample for C6: on the flattened map `exNegFlat` (single
proportion 2) the deficit is negative, yet the quantizer does not fail:
it silently returns output whose scaled values sum to `2000000 ≠ 10^6`. -/
theorem quantize_bad_deficit_cex :
    deficit exNegEntries < 0
    ∧ quantize exNegFlat exPaths = some exNegEntries
    ∧ (exNegEntries.map QEntry.floorv).sum ≠ 10 ^ 6 := by
  refine ⟨by decide, by decide, by decide⟩

/-- Witness for C6 (amended), at a negative-deficit input and at an
input whose deficit exceeds the entry count. -/
theorem quantize_bad_deficit_witness :
    (deficit exNegEntries < 0
      ∧ quantize exNegFlat exPaths = some (sortQ exNegEntries)
      ∧ ((sortQ exNegEntries).map QEntry.floorv).sum ≠ 10 ^ 6)
    ∧ ((exZeroEntries.length : ℤ) < deficit exZeroEntries
      ∧ quantize exBigDefFlat exPaths = none) :=
  ⟨⟨by decide,
    (quantize_bad_deficit exNegFlat exPaths exNegEntries (by decide)).2 (by decide)⟩,
   ⟨by decide,
    (quantize_bad_deficit exBigDefFlat exPaths exZeroEntries (by decide)).1 (by decide)⟩⟩

/-- C9: the quantizer is deterministic — as a pure function, two runs on
the same flattened map give identical ordered output — and its
descending-remainder sort is stable: any two entries with equal
remainders keep their original relative order in the sorted list. -/
theorem quantize_deterministic_stable :
    (∀ flattened paths, quantize flattened paths = quantize flattened paths)
    ∧ ∀ (l : List QEntry) (a b : QEntry),
        a.remainder = b.remainder → [a, b].Sublist l → [a, b].Sublist (sortQ l) := by
  refine ⟨fun _ _ => rfl, fun l a b hr hs => ?_⟩
  have hab : qle a b := le_of_eq hr.symm
  exact List.pair_sublist_insertionSort hab hs

/-- Witness for C9: two concrete entries tied at remainder `1/2` stay in
their original order after sorting. -/
theorem quantize_deterministic_stable_witness :
    (⟨"x", "pa", 0, 1 / 2⟩ : QEntry).remainder = (⟨"y", "pb", 1, 1 / 2⟩ : QEntry).remainder
    ∧ [(⟨"x", "pa", 0, 1 / 2⟩ : QEntry), ⟨"y", "pb", 1, 1 / 2⟩].Sublist
        (sortQ [⟨"x", "pa", 0, 1 / 2⟩, ⟨"y", "pb", 1, 1 / 2⟩]) :=
  ⟨by decide,
    quantize_deterministic_stable.2 _ _ _ (by decide) (List.Sublist.refl _)⟩

/-! ### Extraction of facts from a successful datamix.py validation run -/

theorem validateMixtureGo_ok :
    ∀ (fuel : Nat) (mixture : List (String × JValue)) (paths : List (String × String))
      (names ids : List String) (props : List ℚ) (ns' is' : List String),
      validateMixtureGo fuel mixture paths names ids = .ok (props, ns', is') →
      WFL mixture
      ∧ ns' = (dfsNames fuel mixture).reverse ++ names
      ∧ (dfsNames fuel mixture).Nodup
      ∧ (∀ x ∈ dfsNames fuel mixture, x ∉ names)
      ∧ is' = (dfsIds fuel mixture).reverse ++ ids
      ∧ (dfsIds fuel mixture).Nodup
      ∧ (∀ x ∈ dfsIds fuel mixture, x ∉ ids)
      ∧ (∀ kv ∈ dfsNodes fuel mixture, nodeFactsDM kv) := by
  intro fuel
  induction fuel with
  | zero =>
    intro mixture paths names ids props ns' is' h
    cases mixture with
    | nil =>
      simp only [validateMixtureGo, Except.ok.injEq, Prod.mk.injEq] at h
      obtain ⟨-, rfl, rfl⟩ := h
      exact ⟨WFL.nil, by simp [dfsNames], by simp [dfsNames], by simp [dfsNames],
        by simp [dfsIds], by simp [dfsIds], by simp [dfsIds], by simp [dfsNodes]⟩
    | cons hd tl => simp [validateMixtureGo] at h
  | succ fuel ih =>
    intro mixture paths names ids props ns' is' h
    cases mixture with
    | nil =>
      simp only [validateMixtureGo, Except.ok.injEq, Prod.mk.injEq] at h
      obtain ⟨-, rfl, rfl⟩ := h
      exact ⟨WFL.nil, by simp [dfsNames], by simp [dfsNames], by simp [dfsNames],
        by simp [dfsIds], by simp [dfsIds], by simp [dfsIds], by simp [dfsNodes]⟩
    | cons hd rest =>
      obtain ⟨k, v⟩ := hd
      simp only [validateMixtureGo] at h
      by_cases hk : k ∈ names
      · rw [if_pos hk] at h; exact Except.noConfusion h
      rw [if_neg hk] at h
      cases v with
      | str s => exact Except.noConfusion h
      | float q => exact Except.noConfusion h
      | int n => exact Except.noConfusion h
      | list xs => exact Except.noConfusion h
      | null => exact Except.noConfusion h
      | dict ve =>
        cases hpv : lookupJ "proportion" ve with
        | none => simp only [hpv] at h; exact Except.noConfusion h
        | some pv =>
          cases pv with
          | str s => simp only [hpv] at h; exact Except.noConfusion h
          | int n => simp only [hpv] at h; exact Except.noConfusion h
          | list xs => simp only [hpv] at h; exact Except.noConfusion h
          | null => simp only [hpv] at h; exact Except.noConfusion h
          | dict we => simp only [hpv] at h; exact Except.noConfusion h
          | float p =>
            simp only [hpv] at h
            by_cases hp : 0 < p ∧ p ≤ 1
            swap
            · rw [if_neg hp] at h; exact Except.noConfusion h
            rw [if_pos hp] at h
            cases hmx : lookupJ "mixture" ve with
            | some mv =>
              cases mv with
              | str s => simp only [hmx] at h; exact Except.noConfusion h
              | float q => simp only [hmx] at h; exact Except.noConfusion h
              | int n => simp only [hmx] at h; exact Except.noConfusion h
              | list xs => simp only [hmx] at h; exact Except.noConfusion h
              | null => simp only [hmx] at h; exact Except.noConfusion h
              | dict me =>
                simp only [hmx] at h
                cases hdl : lookupJ "data" ve with
                | some dv => simp only [hdl] at h; exact Except.noConfusion h
                | none =>
                  simp only [hdl] at h
                  cases hnest : validateMixtureGo fuel me paths (k :: names) ids with
                  | error e => simp only [hnest] at h; exact Except.noConfusion h
                  | ok t =>
                    obtain ⟨mprops, ns₁, is₁⟩ := t
                    simp only [hnest] at h
                    by_cases hb : balanceOK mprops.sum = true
                    swap
                    · rw [if_neg hb] at h; exact Except.noConfusion h
                    rw [if_pos hb] at h
                    cases hrest : validateMixtureGo fuel rest paths ns₁ is₁ with
                    | error e => simp only [hrest] at h; exact Except.noConfusion h
                    | ok t₂ =>
                      obtain ⟨rprops, ns₂, is₂⟩ := t₂
                      simp only [hrest, Except.ok.injEq, Prod.mk.injEq] at h
                      obtain ⟨-, rfl, rfl⟩ := h
                      obtain ⟨w₁, e₁, n₁, f₁, ei₁, ni₁, fi₁, nf₁⟩ :=
                        ih me paths (k :: names) ids mprops ns₁ is₁ hnest
                      obtain ⟨w₂, e₂, n₂, f₂, ei₂, ni₂, fi₂, nf₂⟩ :=
                        ih rest paths ns₁ is₁ rprops ns₂ is₂ hrest
                      have hmemns₁ : ∀ x, x ∈ k :: names → x ∈ ns₁ := by
                        intro x hx; rw [e₁]; simp only [List.mem_append]; right; exact hx
                      have hAns₁ : ∀ x, x ∈ dfsNames fuel me → x ∈ ns₁ := by
                        intro x hx; rw [e₁]
                        simp only [List.mem_append, List.mem_reverse]; left; exact hx
                      have hmemis₁ : ∀ x, x ∈ ids → x ∈ is₁ := by
                        intro x hx; rw [ei₁]; simp only [List.mem_append]; right; exact hx
                      have hCis₁ : ∀ x, x ∈ dfsIds fuel me → x ∈ is₁ := by
                        intro x hx; rw [ei₁]
                        simp only [List.mem_append, List.mem_reverse]; left; exact hx
                      refine ⟨WFL.node hpv hmx w₁ w₂, ?_, ?_, ?_, ?_, ?_, ?_, ?_⟩
                      · simp only [dfsNames, hmx, List.reverse_cons, List.reverse_append,
                          List.append_assoc, List.singleton_append]
                        rw [e₂, e₁]
                      · simp only [dfsNames, hmx, List.nodup_cons, List.nodup_append,
                          List.mem_append]
                        refine ⟨?_, n₁, n₂, ?_⟩
                        · rintro (hxA | hxB)
                          · exact f₁ k hxA (List.mem_cons_self k names)
                          · exact f₂ k hxB (hmemns₁ k (List.mem_cons_self k names))
                        · intro x hxA hxB
                          exact f₂ x hxB (hAns₁ x hxA)
                      · simp only [dfsNames, hmx, List.mem_cons, List.mem_append]
                        rintro x (rfl | hxA | hxB)
                        · exact hk
                        · exact fun hmem => f₁ x hxA (List.mem_cons_of_mem k hmem)
                        · exact fun hmem => f₂ x hxB (hmemns₁ x (List.mem_cons_of_mem k hmem))
                      · simp only [dfsIds, hmx, List.reverse_append, List.append_assoc]
                        rw [ei₂, ei₁]
                      · simp only [dfsIds, hmx, List.nodup_append]
                        exact ⟨ni₁, ni₂, fun x hxC hxD => fi₂ x hxD (hCis₁ x hxC)⟩
                      · simp only [dfsIds, hmx, List.mem_append]
                        rintro x (hxC | hxD)
                        · exact fi₁ x hxC
                        · exact fun hmem => fi₂ x hxD (hmemis₁ x hmem)
                      · simp only [dfsNodes, hmx, List.mem_cons, List.mem_append]
                        rintro kv (rfl | hkvA | hkvB)
                        · exact ⟨ve, rfl, ⟨p, hpv, hp.1, hp.2⟩, Or.inl ⟨me, hmx, hdl⟩⟩
                        · exact nf₁ kv hkvA
                        · exact nf₂ kv hkvB
            | none =>
              cases hdl : lookupJ "data" ve with
              | none => simp only [hmx, hdl] at h; exact Except.noConfusion h
              | some dv =>
                cases dv with
                | float q => simp only [hmx, hdl] at h; exact Except.noConfusion h
                | int n => simp only [hmx, hdl] at h; exact Except.noConfusion h
                | list xs => simp only [hmx, hdl] at h; exact Except.noConfusion h
                | null => simp only [hmx, hdl] at h; exact Except.noConfusion h
                | dict we => simp only [hmx, hdl] at h; exact Except.noConfusion h
                | str d =>
                  simp only [hmx, hdl] at h
                  by_cases hpm : d ∈ paths.map Prod.fst
                  swap
                  · rw [if_neg hpm] at h; exact Except.noConfusion h
                  rw [if_pos hpm] at h
                  by_cases hid : d ∈ ids
                  · rw [if_pos hid] at h; exact Except.noConfusion h
                  rw [if_neg hid] at h
                  cases hrest : validateMixtureGo fuel rest paths (k :: names) (d :: ids) with
                  | error e => simp only [hrest] at h; exact Except.noConfusion h
                  | ok t₂ =>
                    obtain ⟨rprops, ns₂, is₂⟩ := t₂
                    simp only [hrest, Except.ok.injEq, Prod.mk.injEq] at h
                    obtain ⟨-, rfl, rfl⟩ := h
                    obtain ⟨w₂, e₂, n₂, f₂, ei₂, ni₂, fi₂, nf₂⟩ :=
                      ih rest paths (k :: names) (d :: ids) rprops ns₂ is₂ hrest
                    refine ⟨WFL.leaf hpv hmx hdl w₂, ?_, ?_, ?_, ?_, ?_, ?_, ?_⟩
                    · simp only [dfsNames, hmx, List.reverse_cons, List.nil_append,
                        List.append_assoc, List.singleton_append]
                      rw [e₂]
                    · simp only [dfsNames, hmx, List.nil_append, List.nodup_cons]
                      exact ⟨fun hxB => f₂ k hxB (List.mem_cons_self k names), n₂⟩
                    · simp only [dfsNames, hmx, List.nil_append, List.mem_cons]
                      rintro x (rfl | hxB)
                      · exact hk
                      · exact fun hmem => f₂ x hxB (List.mem_cons_of_mem k hmem)
                    · simp only [dfsIds, hmx, hdl, List.singleton_append, List.reverse_cons,
                        List.append_assoc]
                      rw [ei₂]
                    · simp only [dfsIds, hmx, hdl, List.singleton_append, List.nodup_cons]
                      exact ⟨fun hxD => fi₂ d hxD (List.mem_cons_self d ids), ni₂⟩
                    · simp only [dfsIds, hmx, hdl, List.singleton_append, List.mem_cons]
                      rintro x (rfl | hxD)
                      · exact hid
                      · exact fun hmem => fi₂ x hxD (List.mem_cons_of_mem d hmem)
                    · simp only [dfsNodes, hmx, List.nil_append, List.mem_cons]
                      rintro kv (rfl | hkvB)
                      · exact ⟨ve, rfl, ⟨p, hpv, hp.1, hp.2⟩, Or.inr ⟨hmx, d, hdl⟩⟩
                      · exact nf₂ kv hkvB

/-! ### Extraction of name facts from a successful datamix-to-file.py run -/

theorem validateMixtureFileGo_ok :
    ∀ (fuel : Nat) (mixture : List (String × JValue)) (paths : List (String × String))
      (names ids : List String) (props : List ℚ) (ns' is' : List String),
      validateMixtureFileGo fuel mixture paths names ids = .ok (props, ns', is') →
      ns' = (dfsNames fuel mixture).reverse ++ names
      ∧ (dfsNames fuel mixture).Nodup
      ∧ (∀ x ∈ dfsNames fuel mixture, x ∉ names) := by
  intro fuel
  induction fuel with
  | zero =>
    intro mixture paths names ids props ns' is' h
    cases mixture with
    | nil =>
      simp only [validateMixtureFileGo, Except.ok.injEq, Prod.mk.injEq] at h
      obtain ⟨-, rfl, rfl⟩ := h
      exact ⟨by simp [dfsNames], by simp [dfsNames], by simp [dfsNames]⟩
    | cons hd tl => simp [validateMixtureFileGo] at h
  | succ fuel ih =>
    intro mixture paths names ids props ns' is' h
    cases mixture with
    | nil =>
      simp only [validateMixtureFileGo, Except.ok.injEq, Prod.mk.injEq] at h
      obtain ⟨-, rfl, rfl⟩ := h
      exact ⟨by simp [dfsNames], by simp [dfsNames], by simp [dfsNames]⟩
    | cons hd rest =>
      obtain ⟨k, v⟩ := hd
      simp only [validateMixtureFileGo] at h
      by_cases hk : k ∈ names
      · rw [if_pos hk] at h; exact Except.noConfusion h
      rw [if_neg hk] at h
      cases v with
      | str s => exact Except.noConfusion h
      | float q => exact Except.noConfusion h
      | int n => exact Except.noConfusion h
      | list xs => exact Except.noConfusion h
      | null => exact Except.noConfusion h
      | dict ve =>
        cases hpv : lookupJ "proportion" ve with
        | none => simp only [hpv] at h; exact Except.noConfusion h
        | some pv =>
          cases hnum : numVal pv with
          | none => simp only [hpv, hnum] at h; exact Except.noConfusion h
          | some p =>
            simp only [hpv, hnum] at h
            cases hmx : lookupJ "mixture" ve with
            | some mv =>
              cases mv with
              | str s => simp only [hmx] at h; exact Except.noConfusion h
              | float q => simp only [hmx] at h; exact Except.noConfusion h
              | int n => simp only [hmx] at h; exact Except.noConfusion h
              | list xs => simp only [hmx] at h; exact Except.noConfusion h
              | null => simp only [hmx] at h; exact Except.noConfusion h
              | dict me =>
                simp only [hmx] at h
                cases hnest : validateMixtureFileGo fuel me paths (k :: names) ids with
                | error e => simp only [hnest] at h; exact Except.noConfusion h
                | ok t =>
                  obtain ⟨mprops, ns₁, is₁⟩ := t
                  simp only [hnest] at h
                  by_cases hb : balanceOK mprops.sum = true
                  swap
                  · rw [if_neg hb] at h; exact Except.noConfusion h
                  rw [if_pos hb] at h
                  cases hrest : validateMixtureFileGo fuel rest paths ns₁ is₁ with
                  | error e => simp only [hrest] at h; exact Except.noConfusion h
                  | ok t₂ =>
                    obtain ⟨rprops, ns₂, is₂⟩ := t₂
                    simp only [hrest, Except.ok.injEq, Prod.mk.injEq] at h
                    obtain ⟨-, rfl, rfl⟩ := h
                    obtain ⟨e₁, n₁, f₁⟩ := ih me paths (k :: names) ids mprops ns₁ is₁ hnest
                    obtain ⟨e₂, n₂, f₂⟩ := ih rest paths ns₁ is₁ rprops ns₂ is₂ hrest
                    have hmemns₁ : ∀ x, x ∈ k :: names → x ∈ ns₁ := by
                      intro x hx; rw [e₁]; simp only [List.mem_append]; right; exact hx
                    have hAns₁ : ∀ x, x ∈ dfsNames fuel me → x ∈ ns₁ := by
                      intro x hx; rw [e₁]
                      simp only [List.mem_append, List.mem_reverse]; left; exact hx
                    refine ⟨?_, ?_, ?_⟩
                    · simp only [dfsNames, hmx, List.reverse_cons, List.reverse_append,
                        List.append_assoc, List.singleton_append]
                      rw [e₂, e₁]
                    · simp only [dfsNames, hmx, List.nodup_cons, List.nodup_append,
                        List.mem_append]
                      refine ⟨?_, n₁, n₂, ?_⟩
                      · rintro (hxA | hxB)
                        · exact f₁ k hxA (List.mem_cons_self k names)
                        · exact f₂ k hxB (hmemns₁ k (List.mem_cons_self k names))
                      · intro x hxA hxB
                        exact f₂ x hxB (hAns₁ x hxA)
                    · simp only [dfsNames, hmx, List.mem_cons, List.mem_append]
                      rintro x (rfl | hxA | hxB)
                      · exact hk
                      · exact fun hmem => f₁ x hxA (List.mem_cons_of_mem k hmem)
                      · exact fun hmem => f₂ x hxB (hmemns₁ x (List.mem_cons_of_mem k hmem))
            | none =>
              cases hdl : lookupJ "data" ve with
              | none => simp only [hmx, hdl] at h; exact Except.noConfusion h
              | some dv =>
                cases dv with
                | float q => simp only [hmx, hdl] at h; exact Except.noConfusion h
                | int n => simp only [hmx, hdl] at h; exact Except.noConfusion h
                | null => simp only [hmx, hdl] at h; exact Except.noConfusion h
                | list xs => simp only [hmx, hdl] at h; exact Except.noConfusion h
                | dict we => simp only [hmx, hdl] at h; exact Except.noConfusion h
                | str d =>
                  simp only [hmx, hdl] at h
                  by_cases hpm : d ∈ paths.map Prod.fst
                  swap
                  · rw [if_neg hpm] at h; exact Except.noConfusion h
                  rw [if_pos hpm] at h
                  cases hrest : validateMixtureFileGo fuel rest paths (k :: names)
                      (if d ∈ ids then ids else d :: ids) with
                  | error e => simp only [hrest] at h; exact Except.noConfusion h
                  | ok t₂ =>
                    obtain ⟨rprops, ns₂, is₂⟩ := t₂
                    simp only [hrest, Except.ok.injEq, Prod.mk.injEq] at h
                    obtain ⟨-, rfl, rfl⟩ := h
                    obtain ⟨e₂, n₂, f₂⟩ :=
                      ih rest paths (k :: names) (if d ∈ ids then ids else d :: ids)
                        rprops ns₂ is₂ hrest
                    refine ⟨?_, ?_, ?_⟩
                    · simp only [dfsNames, hmx, List.reverse_cons, List.nil_append,
                        List.append_assoc, List.singleton_append]
                      rw [e₂]
                    · simp only [dfsNames, hmx, List.nil_append, List.nodup_cons]
                      exact ⟨fun hxB => f₂ k hxB (List.mem_cons_self k names), n₂⟩
                    · simp only [dfsNames, hmx, List.nil_append, List.mem_cons]
                      rintro x (rfl | hxB)
                      · exact hk
                      · exact fun hmem => f₂ x hxB (List.mem_cons_of_mem k hmem)

/-- Facts available after `validate_mixture` (datamix.py) succeeds. -/
theorem validate_mixture_ok_facts (mixture : List (String × JValue))
    (paths : List (String × String)) (h : validate_mixture mixture paths = .ok ()) :
    WFL mixture
    ∧ (dfsNames (sizeJL mixture) mixture).Nodup
    ∧ (dfsIds (sizeJL mixture) mixture).Nodup
    ∧ (∀ kv ∈ dfsNodes (sizeJL mixture) mixture, nodeFactsDM kv) := by
  unfold validate_mixture at h
  cases hgo : validateMixtureGo (sizeJL mixture) mixture paths [] [] with
  | error e => rw [hgo] at h; exact Except.noConfusion h
  | ok t =>
    obtain ⟨props, ns', is'⟩ := t
    obtain ⟨w, -, n, -, -, ni, -, nf⟩ := validateMixtureGo_ok _ _ _ _ _ _ _ _ hgo
    exact ⟨w, n, ni, nf⟩

/-- Name facts available after `validate_mixture` of `datamix-to-file.py`
succeeds. -/
theorem validate_mixture_file_ok_names (mixture : List (String × JValue))
    (paths : List (String × String)) (h : validate_mixture_file mixture paths = .ok ()) :
    (dfsNames (sizeJL mixture) mixture).Nodup := by
  unfold validate_mixture_file at h
  cases hgo : validateMixtureFileGo (sizeJL mixture) mixture paths [] [] with
  | error e => rw [hgo] at h; exact Except.noConfusion h
  | ok t =>
    obtain ⟨props, ns', is'⟩ := t
    obtain ⟨-, n, -⟩ := validateMixtureFileGo_ok _ _ _ _ _ _ _ _ hgo
    exact n

/-! ### Flattening a validated tree -/

theorem dictInsert_of_not_mem :
    ∀ (l : List (String × ℚ × JValue)) (k : String) (x : ℚ × JValue),
      k ∉ l.map (fun e => e.1) → dictInsert l k x = l ++ [(k, x)] := by
  intro l
  induction l with
  | nil => intro k x _; rfl
  | cons hd tl ih =>
    intro k x hk
    obtain ⟨k', y⟩ := hd
    simp only [List.map_cons, List.mem_cons] at hk
    push_neg at hk
    simp only [dictInsert, List.cons_append]
    rw [if_neg (fun he => hk.1 he.symm), ih k x hk.2]

theorem mapped_keys (l : List (String × ℚ × String)) :
    (l.map (fun e => (e.1, e.2.1, JValue.str e.2.2))).map (fun e => e.1) =
      l.map (fun e => e.1) := by
  induction l with
  | nil => rfl
  | cons hd tl ih => simp [ih]

theorem specLeaves_keys_sublist :
    ∀ (fuel : Nat) (mixture : List (String × JValue)) (pw : ℚ),
      ((specLeavesGo fuel mixture pw).map (fun e => e.1)).Sublist (dfsNames fuel mixture) := by
  intro fuel
  induction fuel with
  | zero =>
    intro mixture pw
    cases mixture with
    | nil => simp [specLeavesGo, dfsNames]
    | cons hd tl => simp [specLeavesGo, dfsNames]
  | succ fuel ih =>
    intro mixture pw
    cases mixture with
    | nil => simp [specLeavesGo, dfsNames]
    | cons hd rest =>
      obtain ⟨k, v⟩ := hd
      cases v with
      | str s =>
        simp only [specLeavesGo, dfsNames, List.nil_append]
        exact (ih rest pw).cons k
      | float q =>
        simp only [specLeavesGo, dfsNames, List.nil_append]
        exact (ih rest pw).cons k
      | int n =>
        simp only [specLeavesGo, dfsNames, List.nil_append]
        exact (ih rest pw).cons k
      | list xs =>
        simp only [specLeavesGo, dfsNames, List.nil_append]
        exact (ih rest pw).cons k
      | null =>
        simp only [specLeavesGo, dfsNames, List.nil_append]
        exact (ih rest pw).cons k
      | dict ve =>
        cases hpv : lookupJ "proportion" ve with
        | none =>
          simp only [specLeavesGo, dfsNames, hpv]
          exact ((ih rest pw).trans (List.sublist_append_right _ _)).cons k
        | some pv =>
          cases hnum : numVal pv with
          | none =>
            simp only [specLeavesGo, dfsNames, hpv, hnum]
            exact ((ih rest pw).trans (List.sublist_append_right _ _)).cons k
          | some p =>
            cases hmx : lookupJ "mixture" ve with
            | some mv =>
              cases mv with
              | str s =>
                simp only [specLeavesGo, dfsNames, hpv, hnum, hmx, List.nil_append]
                exact (ih rest pw).cons k
              | float q =>
                simp only [specLeavesGo, dfsNames, hpv, hnum, hmx, List.nil_append]
                exact (ih rest pw).cons k
              | int n =>
                simp only [specLeavesGo, dfsNames, hpv, hnum, hmx, List.nil_append]
                exact (ih rest pw).cons k
              | list xs =>
                simp only [specLeavesGo, dfsNames, hpv, hnum, hmx, List.nil_append]
                exact (ih rest pw).cons k
              | null =>
                simp only [specLeavesGo, dfsNames, hpv, hnum, hmx, List.nil_append]
                exact (ih rest pw).cons k
              | dict me =>
                simp only [specLeavesGo, dfsNames, hpv, hnum, hmx, List.map_append]
                exact (((ih me (pw * p)).append (ih rest pw))).cons k
            | none =>
              cases hdl : lookupJ "data" ve with
              | none =>
                simp only [specLeavesGo, dfsNames, hpv, hnum, hmx, hdl, List.nil_append]
                exact (ih rest pw).cons k
              | some dv =>
                cases dv with
                | str d =>
                  simp only [specLeavesGo, dfsNames, hpv, hnum, hmx, hdl, List.map_cons,
                    List.nil_append]
                  exact (ih rest pw).cons₂ k
                | float q =>
                  simp only [specLeavesGo, dfsNames, hpv, hnum, hmx, hdl, List.nil_append]
                  exact (ih rest pw).cons k
                | int n =>
                  simp only [specLeavesGo, dfsNames, hpv, hnum, hmx, hdl, List.nil_append]
                  exact (ih rest pw).cons k
                | list xs =>
                  simp only [specLeavesGo, dfsNames, hpv, hnum, hmx, hdl, List.nil_append]
                  exact (ih rest pw).cons k
                | null =>
                  simp only [specLeavesGo, dfsNames, hpv, hnum, hmx, hdl, List.nil_append]
                  exact (ih rest pw).cons k
                | dict we =>
                  simp only [specLeavesGo, dfsNames, hpv, hnum, hmx, hdl, List.nil_append]
                  exact (ih rest pw).cons k

theorem flattenGo_eq_specLeaves :
    ∀ (fuel : Nat) (mixture : List (String × JValue)) (pw : ℚ)
      (acc : List (String × ℚ × JValue)),
      sizeJL mixture ≤ fuel →
      WFL mixture →
      ((specLeavesGo fuel mixture pw).map (fun e => e.1)).Nodup →
      (∀ x ∈ (specLeavesGo fuel mixture pw).map (fun e => e.1),
        x ∉ acc.map (fun e => e.1)) →
      flattenGo fuel mixture pw acc =
        some (acc ++ (specLeavesGo fuel mixture pw).map
          (fun e => (e.1, e.2.1, JValue.str e.2.2))) := by
  intro fuel
  induction fuel with
  | zero =>
    intro mixture pw acc hsz hw _ _
    cases hw with
    | nil => simp [flattenGo, specLeavesGo]
    | leaf hp hm hd hrest => exfalso; simp only [sizeJL] at hsz; omega
    | node hp hm hme hrest => exfalso; simp only [sizeJL] at hsz; omega
  | succ fuel ih =>
    intro mixture pw acc hsz hw hnd hdisj
    cases hw with
    | nil => simp [flattenGo, specLeavesGo]
    | @leaf k ve rest p d hp hm hd hrest =>
      have hszrest : sizeJL rest ≤ fuel := by
        have := sizeJ_pos (JValue.dict ve)
        simp only [sizeJL] at hsz
        omega
      simp only [specLeavesGo, hp, hm, hd, numVal, List.map_cons, List.nodup_cons] at hnd
      obtain ⟨hknotin, hndrest⟩ := hnd
      simp only [specLeavesGo, hp, hm, hd, numVal, List.map_cons, List.mem_cons] at hdisj
      have hkacc : k ∉ acc.map (fun e => e.1) := hdisj k (Or.inl rfl)
      simp only [flattenGo, specLeavesGo, hp, hm, hd, numVal, List.map_cons]
      rw [dictInsert_of_not_mem acc k _ hkacc]
      rw [ih rest pw (acc ++ [(k, (pw * p, JValue.str d))]) hszrest hrest hndrest ?_]
      · simp [List.append_assoc]
      · intro x hx
        simp only [List.map_append, List.mem_append, List.map_cons, List.map_nil,
          List.mem_singleton]
        push_neg
        constructor
        · exact hdisj x (Or.inr hx)
        · rintro rfl; exact hknotin hx
    | @node k ve me rest p hp hm hme hrest =>
      have hs := lookupJ_mixture_size hm
      have hszme : sizeJL me ≤ fuel := by
        simp only [sizeJL, sizeJ] at hsz
        omega
      have hszrest : sizeJL rest ≤ fuel := by
        have := sizeJ_pos (JValue.dict ve)
        simp only [sizeJL] at hsz
        omega
      simp only [specLeavesGo, hp, hm, numVal, List.map_append, List.nodup_append] at hnd
      obtain ⟨nme, nrest, hdisjmr⟩ := hnd
      simp only [specLeavesGo, hp, hm, numVal, List.map_append, List.mem_append] at hdisj
      have h₁ : flattenGo fuel me (pw * p) acc =
          some (acc ++ (specLeavesGo fuel me (pw * p)).map
            (fun e => (e.1, e.2.1, JValue.str e.2.2))) :=
        ih me (pw * p) acc hszme hme nme (fun x hx => hdisj x (Or.inl hx))
      simp only [flattenGo, specLeavesGo, hp, hm, numVal, h₁]
      rw [ih rest pw _ hszrest hrest nrest ?_]
      · simp [List.append_assoc, List.map_append]
      · intro x hx
        simp only [List.map_append, List.mem_append, mapped_keys]
        push_neg
        exact ⟨hdisj x (Or.inr hx), fun hmem => hdisjmr hmem hx⟩

/-- C8: for every mixture tree accepted by validation, flattening
succeeds (raises no error) and produces exactly one entry per leaf of
the depth-first traversal, keyed by the leaf's own name, whose
proportion is the product of the `proportion` values along the
root-to-leaf path (parent weight times node proportion, from an initial
parent weight of 1) and whose data field is the leaf's data-ID
(`spec_leaves` is that spec-side description). -/
theorem flatten_correct_on_validated (mixture : List (String × JValue))
    (paths : List (String × String)) (h : validate_mixture mixture paths = .ok ()) :
    flatten_mixture mixture =
      some ((spec_leaves mixture).map (fun e => (e.1, e.2.1, JValue.str e.2.2))) := by
  obtain ⟨w, n, -, -⟩ := validate_mixture_ok_facts mixture paths h
  have hkeys : ((specLeavesGo (sizeJL mixture) mixture 1).map (fun e => e.1)).Nodup :=
    List.Nodup.sublist (specLeaves_keys_sublist (sizeJL mixture) mixture 1) n
  have hmain := flattenGo_eq_specLeaves (sizeJL mixture) mixture 1 [] (le_refl _) w hkeys
    (by simp)
  simpa [flatten_mixture, spec_leaves] using hmain

/-- Witness for C8 on a concrete valid two-level mixture. -/
theorem flatten_correct_on_validated_witness :
    validate_mixture exNestedMix exPaths = .ok ()
    ∧ flatten_mixture exNestedMix =
        some ((spec_leaves exNestedMix).map (fun e => (e.1, e.2.1, JValue.str e.2.2))) :=
  ⟨rfl, flatten_correct_on_validated exNestedMix exPaths rfl⟩

/-! ### Claim theorems on the validators -/

/-- C2 (amended): both validators accept a level's proportion sum `s`
exactly when `round(s, 10) == 1`, i.e. when `|s - 1| ≤ 0.5e-10` — half
the tolerance stated in the claim; a rejected level is reported with a
balance error naming the level by its parent key, or
`"top level mixture"` for the root. -/
theorem balance_tolerance :
    (∀ s : ℚ, balanceOK s = true ↔ |s - 1| ≤ 1 / (2 * 10 ^ 10))
    ∧ validate_mixture exBalanceMix exPaths = .error (.balance "top level mixture")
    ∧ validate_mixture_file exBalanceMix exPaths = .error (.balance "top level mixture") :=
  ⟨balanceOK_iff, rfl, rfl⟩

/-- Counterexample for C2: the proportion sum of `exBalanceMix` is
`1 + 8e-11`, within the claimed tolerance `1e-10` of 1, yet validation
rejects it with a balance error, so the acceptance condition is not
`|s - 1| ≤ 1e-10`. -/
theorem balance_tolerance_cex :
    |((1 : ℚ) / 2 + 6250000001 / 12500000000) - 1| ≤ 1 / 10 ^ 10
    ∧ validate_mixture exBalanceMix exPaths = .error (.balance "top level mixture") := by
  refine ⟨by rw [abs_le]; constructor <;> norm_num, rfl⟩

/-- C3 (amended): in `datamix.py`, validation succeeds only if every
visited node carries a float `proportion` lying in `(0, 1]`, so a node
with a missing, non-float, zero, negative or greater-than-1 proportion
is rejected; in `datamix-to-file.py` the proportion need only be
present and numeric — there is no range check, and the tree
`exZeroPropMix` containing a node with proportion 0 is accepted. -/
theorem proportion_checks :
    (∀ mixture paths, validate_mixture mixture paths = .ok () →
      ∀ kv ∈ dfsNodes (sizeJL mixture) mixture, ∃ ve p,
        kv.2 = JValue.dict ve ∧ lookupJ "proportion" ve = some (.float p) ∧
          0 < p ∧ p ≤ 1)
    ∧ validate_mixture_file exZeroPropMix exPaths = .ok () := by
  constructor
  · intro mixture paths h kv hkv
    obtain ⟨-, -, -, nf⟩ := validate_mixture_ok_facts mixture paths h
    obtain ⟨ve, hve, ⟨p, hp, h0, h1⟩, -⟩ := nf kv hkv
    exact ⟨ve, p, hve, hp, h0, h1⟩
  · rfl

/-- Counterexample for C3: node `x` of `exZeroPropMix` has proportion 0
(not in `(0, 1]`), yet `validate_mixture` of `datamix-to-file.py`
accepts the tree. -/
theorem proportion_checks_cex :
    lookupJ "x" exZeroPropMix = some (.dict exZeroNode)
    ∧ lookupJ "proportion" exZeroNode = some (.float 0)
    ∧ ¬ (0 < (0 : ℚ))
    ∧ validate_mixture_file exZeroPropMix exPaths = .ok () :=
  ⟨rfl, rfl, by norm_num, rfl⟩

/-- Witness for C3 on a concrete valid mixture. -/
theorem proportion_checks_witness :
    validate_mixture exNestedMix exPaths = .ok ()
    ∧ ∀ kv ∈ dfsNodes (sizeJL exNestedMix) exNestedMix, ∃ ve p,
        kv.2 = JValue.dict ve ∧ lookupJ "proportion" ve = some (.float p) ∧
          0 < p ∧ p ≤ 1 :=
  ⟨rfl, proportion_checks.1 exNestedMix exPaths rfl⟩

/-- C4 (amended): in `datamix.py`, a successful validation guarantees
every visited node carries exactly one of a `mixture` key or a `data`
key (both present and neither present are errors); `datamix-to-file.py`
rejects `neither` but not `both`: on a node with both keys it recurses
into the `mixture` value, silently ignoring `data`, and accepts
`exBothMix`. -/
theorem exactly_one_data_or_mixture :
    (∀ mixture paths, validate_mixture mixture paths = .ok () →
      ∀ kv ∈ dfsNodes (sizeJL mixture) mixture, ∃ ve,
        kv.2 = JValue.dict ve ∧
          (((lookupJ "mixture" ve).isSome ∧ lookupJ "data" ve = none) ∨
            (lookupJ "mixture" ve = none ∧ (lookupJ "data" ve).isSome)))
    ∧ validate_mixture_file exBothMix exPaths = .ok () := by
  constructor
  · intro mixture paths h kv hkv
    obtain ⟨-, -, -, nf⟩ := validate_mixture_ok_facts mixture paths h
    obtain ⟨ve, hve, -, hor⟩ := nf kv hkv
    refine ⟨ve, hve, ?_⟩
    rcases hor with ⟨me, hm, hd⟩ | ⟨hm, d, hd⟩
    · exact Or.inl ⟨by rw [hm]; rfl, hd⟩
    · exact Or.inr ⟨hm, by rw [hd]; rfl⟩
  · rfl

/-- Counterexample for C4: the node `x` of `exBothMix` carries both a
`data` key and a `mixture` key, yet `validate_mixture` of
`datamix-to-file.py` accepts the tree. -/
theorem exactly_one_data_or_mixture_cex :
    (lookupJ "data" exBothNode).isSome
    ∧ (lookupJ "mixture" exBothNode).isSome
    ∧ validate_mixture_file exBothMix exPaths = .ok () :=
  ⟨rfl, rfl, rfl⟩

/-- Witness for C4 on a concrete valid mixture. -/
theorem exactly_one_data_or_mixture_witness :
    validate_mixture exNestedMix exPaths = .ok ()
    ∧ ∀ kv ∈ dfsNodes (sizeJL exNestedMix) exNestedMix, ∃ ve,
        kv.2 = JValue.dict ve ∧
          (((lookupJ "mixture" ve).isSome ∧ lookupJ "data" ve = none) ∨
            (lookupJ "mixture" ve = none ∧ (lookupJ "data" ve).isSome)) :=
  ⟨rfl, exactly_one_data_or_mixture.1 exNestedMix exPaths rfl⟩

/-- C5 (amended): `datamix.py` threads one ID set through the whole
recursive traversal and rejects duplicate references, so a successful
validation implies the data-IDs of all leaves (in depth-first order) are
pairwise distinct; `datamix-to-file.py` never checks for duplicates
(`ids.add` of a seen ID is a silent set insert) and accepts
`exDupRefMix`, whose two leaves reference the same data-ID. -/
theorem duplicate_data_refs :
    (∀ mixture paths, validate_mixture mixture paths = .ok () →
      (dfsIds (sizeJL mixture) mixture).Nodup)
    ∧ validate_mixture_file exDupRefMix exPaths = .ok () := by
  constructor
  · intro mixture paths h
    exact (validate_mixture_ok_facts mixture paths h).2.2.1
  · rfl

/-- Counterexample for C5: both leaves of `exDupRefMix` reference the
data-ID `"a"`, yet `validate_mixture` of `datamix-to-file.py` accepts
the tree. -/
theorem duplicate_data_refs_cex :
    dfsIds (sizeJL exDupRefMix) exDupRefMix = ["a", "a"]
    ∧ validate_mixture_file exDupRefMix exPaths = .ok () :=
  ⟨rfl, rfl⟩

/-- Witness for C5 on a concrete valid mixture. -/
theorem duplicate_data_refs_witness :
    validate_mixture exNestedMix exPaths = .ok ()
    ∧ (dfsIds (sizeJL exNestedMix) exNestedMix).Nodup :=
  ⟨rfl, duplicate_data_refs.1 exNestedMix exPaths rfl⟩

/-- C7: both validators thread the `names` set through every recursive
call without resetting it per nesting level, so whenever a node name
repeats anywhere in the depth-first, left-to-right traversal — across
different nesting levels, not only among siblings — validation fails;
on the concrete cross-level duplicate `exCrossDupMix` (name `x` at the
top level and again inside the nested mixture of `y`) both validators
raise the duplicate-name error for `"x"`. -/
theorem duplicate_names_rejected :
    (∀ mixture paths, ¬ (dfsNames (sizeJL mixture) mixture).Nodup →
      validate_mixture mixture paths ≠ .ok ())
    ∧ (∀ mixture paths, ¬ (dfsNames (sizeJL mixture) mixture).Nodup →
      validate_mixture_file mixture paths ≠ .ok ())
    ∧ validate_mixture exCrossDupMix exPaths = .error (.dupName "x")
    ∧ validate_mixture_file exCrossDupMix exPaths = .error (.dupName "x") := by
  refine ⟨?_, ?_, rfl, rfl⟩
  · intro mixture paths hdup h
    exact hdup (validate_mixture_ok_facts mixture paths h).2.1
  · intro mixture paths hdup h
    exact hdup (validate_mixture_file_ok_names mixture paths h)

/-- Witness for C7 on the concrete cross-level duplicate. -/
theorem duplicate_names_rejected_witness :
    ¬ (dfsNames (sizeJL exCrossDupMix) exCrossDupMix).Nodup
    ∧ validate_mixture exCrossDupMix exPaths ≠ .ok ()
    ∧ validate_mixture_file exCrossDupMix exPaths ≠ .ok () :=
  ⟨by decide, duplicate_names_rejected.1 exCrossDupMix exPaths (by decide),
    duplicate_names_rejected.2.1 exCrossDupMix exPaths (by decide)⟩

/-- C10: validating an empty mixture mapping always fails in both
scripts: the sum of an empty set of proportions is 0, which does not
round to 1, so the empty document is rejected with a balance error
naming the top level — for every paths table. -/
theorem empty_mixture_rejected (paths : List (String × String)) :
    validate_mixture [] paths = .error (.balance "top level mixture")
    ∧ validate_mixture_file [] paths = .error (.balance "top level mixture") :=
  ⟨rfl, rfl⟩

/-! ### The fuel bound used by the wrappers is always sufficient -/

theorem validateMixtureGo_no_fuelOut :
    ∀ (fuel : Nat) (mixture : List (String × JValue)) (paths : List (String × String))
      (names ids : List String),
      sizeJL mixture ≤ fuel →
      validateMixtureGo fuel mixture paths names ids ≠ .error .fuelOut := by
  intro fuel
  induction fuel with
  | zero =>
    intro mixture paths names ids hsz h
    cases mixture with
    | nil => simp [validateMixtureGo] at h
    | cons hd tl =>
      obtain ⟨k, v⟩ := hd
      have := sizeJ_pos v
      simp only [sizeJL] at hsz
      omega
  | succ fuel ih =>
    intro mixture paths names ids hsz h
    cases mixture with
    | nil => simp [validateMixtureGo] at h
    | cons hd rest =>
      obtain ⟨k, v⟩ := hd
      have hvp := sizeJ_pos v
      have hszrest : sizeJL rest ≤ fuel := by
        simp only [sizeJL] at hsz; omega
      simp only [validateMixtureGo] at h
      by_cases hk : k ∈ names
      · rw [if_pos hk] at h; simp at h
      rw [if_neg hk] at h
      cases v with
      | str s => simp at h
      | float q => simp at h
      | int n => simp at h
      | list xs => simp at h
      | null => simp at h
      | dict ve =>
        cases hpv : lookupJ "proportion" ve with
        | none => simp [hpv] at h
        | some pv =>
          cases pv with
          | str s => simp [hpv] at h
          | int n => simp [hpv] at h
          | list xs => simp [hpv] at h
          | null => simp [hpv] at h
          | dict we => simp [hpv] at h
          | float p =>
            simp only [hpv] at h
            by_cases hp : 0 < p ∧ p ≤ 1
            swap
            · rw [if_neg hp] at h; simp at h
            rw [if_pos hp] at h
            cases hmx : lookupJ "mixture" ve with
            | some mv =>
              cases mv with
              | str s => simp [hmx] at h
              | float q => simp [hmx] at h
              | int n => simp [hmx] at h
              | list xs => simp [hmx] at h
              | null => simp [hmx] at h
              | dict me =>
                have hszme : sizeJL me ≤ fuel := by
                  have := lookupJ_mixture_size hmx
                  simp only [sizeJL, sizeJ] at hsz
                  omega
                simp only [hmx] at h
                cases hdl : lookupJ "data" ve with
                | some dv => simp [hdl] at h
                | none =>
                  simp only [hdl] at h
                  cases hnest : validateMixtureGo fuel me paths (k :: names) ids with
                  | error e =>
                    simp only [hnest, Except.error.injEq] at h
                    exact ih me paths (k :: names) ids hszme (h ▸ hnest)
                  | ok t =>
                    obtain ⟨mprops, ns₁, is₁⟩ := t
                    simp only [hnest] at h
                    by_cases hb : balanceOK mprops.sum = true
                    swap
                    · rw [if_neg hb] at h; simp at h
                    rw [if_pos hb] at h
                    cases hrest : validateMixtureGo fuel rest paths ns₁ is₁ with
                    | error e =>
                      simp only [hrest, Except.error.injEq] at h
                      exact ih rest paths ns₁ is₁ hszrest (h ▸ hrest)
                    | ok t₂ =>
                      obtain ⟨rprops, ns₂, is₂⟩ := t₂
                      simp [hrest] at h
            | none =>
              cases hdl : lookupJ "data" ve with
              | none => simp [hmx, hdl] at h
              | some dv =>
                cases dv with
                | float q => simp [hmx, hdl] at h
                | int n => simp [hmx, hdl] at h
                | list xs => simp [hmx, hdl] at h
                | null => simp [hmx, hdl] at h
                | dict we => simp [hmx, hdl] at h
                | str d =>
                  simp only [hmx, hdl] at h
                  by_cases hpm : d ∈ paths.map Prod.fst
                  swap
                  · rw [if_neg hpm] at h; simp at h
                  rw [if_pos hpm] at h
                  by_cases hid : d ∈ ids
                  · rw [if_pos hid] at h; simp at h
                  rw [if_neg hid] at h
                  cases hrest : validateMixtureGo fuel rest paths (k :: names) (d :: ids) with
                  | error e =>
                    simp only [hrest, Except.error.injEq] at h
                    exact ih rest paths (k :: names) (d :: ids) hszrest (h ▸ hrest)
                  | ok t₂ =>
                    obtain ⟨rprops, ns₂, is₂⟩ := t₂
                    simp [hrest] at h

theorem validateMixtureFileGo_no_fuelOut :
    ∀ (fuel : Nat) (mixture : List (String × JValue)) (paths : List (String × String))
      (names ids : List String),
      sizeJL mixture ≤ fuel →
      validateMixtureFileGo fuel mixture paths names ids ≠ .error .fuelOut := by
  intro fuel
  induction fuel with
  | zero =>
    intro mixture paths names ids hsz h
    cases mixture with
    | nil => simp [validateMixtureFileGo] at h
    | cons hd tl =>
      obtain ⟨k, v⟩ := hd
      have := sizeJ_pos v
      simp only [sizeJL] at hsz
      omega
  | succ fuel ih =>
    intro mixture paths names ids hsz h
    cases mixture with
    | nil => simp [validateMixtureFileGo] at h
    | cons hd rest =>
      obtain ⟨k, v⟩ := hd
      have hvp := sizeJ_pos v
      have hszrest : sizeJL rest ≤ fuel := by
        simp only [sizeJL] at hsz; omega
      simp only [validateMixtureFileGo] at h
      by_cases hk : k ∈ names
      · rw [if_pos hk] at h; simp at h
      rw [if_neg hk] at h
      cases v with
      | str s => simp at h
      | float q => simp at h
      | int n => simp at h
      | list xs => simp at h
      | null => simp at h
      | dict ve =>
        cases hpv : lookupJ "proportion" ve with
        | none => simp [hpv] at h
        | some pv =>
          cases hnum : numVal pv with
          | none => simp [hpv, hnum] at h
          | some p =>
            simp only [hpv, hnum] at h
            cases hmx : lookupJ "mixture" ve with
            | some mv =>
              cases mv with
              | str s => simp [hmx] at h
              | float q => simp [hmx] at h
              | int n => simp [hmx] at h
              | list xs => simp [hmx] at h
              | null => simp [hmx] at h
              | dict me =>
                have hszme : sizeJL me ≤ fuel := by
                  have := lookupJ_mixture_size hmx
                  simp only [sizeJL, sizeJ] at hsz
                  omega
                simp only [hmx] at h
                cases hnest : validateMixtureFileGo fuel me paths (k :: names) ids with
                | error e =>
                  simp only [hnest, Except.error.injEq] at h
                  exact ih me paths (k :: names) ids hszme (h ▸ hnest)
                | ok t =>
                  obtain ⟨mprops, ns₁, is₁⟩ := t
                  simp only [hnest] at h
                  by_cases hb : balanceOK mprops.sum = true
                  swap
                  · rw [if_neg hb] at h; simp at h
                  rw [if_pos hb] at h
                  cases hrest : validateMixtureFileGo fuel rest paths ns₁ is₁ with
                  | error e =>
                    simp only [hrest, Except.error.injEq] at h
                    exact ih rest paths ns₁ is₁ hszrest (h ▸ hrest)
                  | ok t₂ =>
                    obtain ⟨rprops, ns₂, is₂⟩ := t₂
                    simp [hrest] at h
            | none =>
              cases hdl : lookupJ "data" ve with
              | none => simp [hmx, hdl] at h
              | some dv =>
                cases dv with
                | float q => simp [hmx, hdl] at h
                | int n => simp [hmx, hdl] at h
                | list xs => simp [hmx, hdl] at h
                | null => simp [hmx, hdl] at h
                | dict we => simp [hmx, hdl] at h
                | str d =>
                  simp only [hmx, hdl] at h
                  by_cases hpm : d ∈ paths.map Prod.fst
                  swap
                  · rw [if_neg hpm] at h; simp at h
                  rw [if_pos hpm] at h
                  cases hrest : validateMixtureFileGo fuel rest paths (k :: names)
                      (if d ∈ ids then ids else d :: ids) with
                  | error e =>
                    simp only [hrest, Except.error.injEq] at h
                    exact ih rest paths (k :: names) (if d ∈ ids then ids else d :: ids)
                      hszrest (h ▸ hrest)
                  | ok t₂ =>
                    obtain ⟨rprops, ns₂, is₂⟩ := t₂
                    simp [hrest] at h

/-- Witness for C2 at the exact sum 1. -/
theorem balance_tolerance_witness : balanceOK 1 = true :=
  (balance_tolerance.1 1).mpr (by norm_num)

/-- Witness for C10 at a concrete paths table. -/
theorem empty_mixture_rejected_witness :
    validate_mixture [] exPaths = .error (.balance "top level mixture")
    ∧ validate_mixture_file [] exPaths = .error (.balance "top level mixture") :=
  empty_mixture_rejected exPaths
